import Mathlib

/-!
Verification development for the 1730sh interactive shell.

The definitions below are a shallow embedding of the shell's parsing,
validation, job-construction and redirection-resolution code
(`1730sh.cpp` and the `Input` class implementation).  Strings are
modelled as Lean `String`/`List Char`; the file system and process-level
effects (open/fork/dup2) are modelled symbolically by small inductive
types, with success of `open` decided by boolean oracles.
-/

set_option maxRecDepth 4000

-- ===================== basic characters and whitespace =====================

-- the double-quote and backslash characters, written via their code points
def quoteChar : Char := Char.ofNat 34

def backslashChar : Char := Char.ofNat 92

-- whitespace trimmed by `trim`/`setShellInput` (the C++ code uses " \t")
def wsChar (c : Char) : Bool := c = ' ' || c = '\t'

-- whitespace recognised by `operator>>` on a stringstream (C isspace set)
def isWsp (c : Char) : Bool :=
  c = ' ' || c = '\t' || c = '\n' || c = '\r' || c = Char.ofNat 11 || c = Char.ofNat 12

-- drop leading characters satisfying wsChar
def dropWs : List Char → List Char
  | [] => []
  | c :: r => if wsChar c then dropWs r else c :: r

/-- `trim` from Input.cpp: erase trailing " \t" (find_last_not_of), then
leading " \t" (find_first_not_of).  `setShellInput` performs the same two
erasures. -/
def trimL (l : List Char) : List Char :=
  dropWs ((dropWs l.reverse).reverse)

def trim (s : String) : String := String.mk (trimL s.toList)

-- ===================== tokenizer (stringstream >> arg) =====================

def tokenizeGo : List Char → List Char → List String
  | [], cur => if cur.isEmpty then [] else [String.mk cur.reverse]
  | c :: rest, cur =>
    if isWsp c then
      if cur.isEmpty then tokenizeGo rest []
      else String.mk cur.reverse :: tokenizeGo rest []
    else tokenizeGo rest (c :: cur)

/-- Whitespace splitting performed by `while(ss >> arg) argv.push_back(arg)`. -/
def tokenize (s : String) : List String := tokenizeGo s.toList []

-- ===================== quote helpers (Input.cpp / 1730sh.cpp) =====================

/-- Loop body of `hasQuotes`: an unescaped double-quote is one whose
immediately preceding character is not a backslash (the first character is
always unescaped). -/
def hasQuotesL : Option Char → List Char → Bool
  | _, [] => false
  | prev, c :: rest =>
    (c = quoteChar && prev ≠ some backslashChar) || hasQuotesL (some c) rest

def hasQuotes (s : String) : Bool := hasQuotesL none s.toList

/-- The count taken by `hasEvenQuotes`: number of unescaped `"` characters. -/
def quoteCountAux : Option Char → List Char → Nat
  | _, [] => 0
  | prev, c :: rest =>
    (if c = quoteChar && prev ≠ some backslashChar then 1 else 0) +
      quoteCountAux (some c) rest

def quoteCount (s : String) : Nat := quoteCountAux none s.toList

/-- `hasEvenQuotes` from 1730sh.cpp: count unescaped quotes, test evenness. -/
def hasEvenQuotes (s : String) : Bool := quoteCount s % 2 = 0

/-- `pos_of_first_quote` from Input.cpp: position of the first unescaped
double-quote; the C++ function returns its default `pos = 0` when none is
found (callers guarantee existence). -/
def posFirstQuoteL : Option Char → Nat → List Char → Nat
  | _, _, [] => 0
  | prev, i, c :: rest =>
    if c = quoteChar && prev ≠ some backslashChar then i
    else posFirstQuoteL (some c) (i + 1) rest

def pos_of_first_quote (s : String) : Nat := posFirstQuoteL none 0 s.toList

/-- Quote stripping inside `processArgv`: a `"` is kept only when the
previous character is a backslash; the first character's quote is dropped. -/
def stripQuotesL : Option Char → List Char → List Char
  | _, [] => []
  | prev, c :: rest =>
    if c = quoteChar then
      if prev = some backslashChar then c :: stripQuotesL (some c) rest
      else stripQuotesL (some c) rest
    else c :: stripQuotesL (some c) rest

/-- `sanitize(proc_arg, "\\")` from Input.cpp: remove every backslash. -/
def sanitizeBS (l : List Char) : List Char := l.filter (fun c => c ≠ backslashChar)

/-- The emission step at the bottom of the `processArgv` loop:
trim, strip unescaped quotes, remove backslashes. -/
def emitArg (arg : String) : String :=
  String.mk (sanitizeBS (stripQuotesL none (trimL arg.toList)))

/-- Loop of `processArgv` (Input.cpp), carrying `quote_count` and the
pending `arg` accumulator exactly as the C++ does. -/
def processArgvGo : List String → Nat → String → List String
  | [], _, _ => []
  | a :: rest, qc, arg =>
    if hasQuotes a then
      let arg0 := if qc = 0 then "" else arg
      let arg1 := arg0 ++ " " ++ a
      let qpos := pos_of_first_quote a
      let alen := a.toList.length
      let qc2 :=
        if 1 < alen && qpos ≠ alen - 1 &&
            hasQuotes (String.mk (a.toList.drop (qpos + 1))) then
          qc + 2
        else qc + 1
      if qc2 = 2 then emitArg arg1 :: processArgvGo rest 0 arg1
      else processArgvGo rest qc2 arg1
    else
      if qc % 2 = 0 then emitArg a :: processArgvGo rest qc a
      else processArgvGo rest qc (arg ++ " " ++ a)

def processArgv (argv : List String) : List String := processArgvGo argv 0 ""

-- ===================== validator (isValidInput) =====================

-- counting helpers named after the claim's three operator categories
def cIn : List String → Nat
  | [] => 0
  | a :: r => (if a = "<" then 1 else 0) + cIn r

def cOut : List String → Nat
  | [] => 0
  | a :: r => (if a = ">" ∨ a = ">>" then 1 else 0) + cOut r

def cErr : List String → Nat
  | [] => 0
  | a :: r => (if a = "e>" ∨ a = "e>>" then 1 else 0) + cErr r

/-- Flag-carrying loop of `isValidInput`: a second occurrence of a
category's operator returns false immediately. -/
def validGo : List String → Bool → Bool → Bool → Bool
  | [], _, _, _ => true
  | a :: rest, fin, fout, ferr =>
    if a = "<" then
      if fin then false else validGo rest true fout ferr
    else if a = ">" ∨ a = ">>" then
      if fout then false else validGo rest fin true ferr
    else if a = "e>" ∨ a = "e>>" then
      if ferr then false else validGo rest fin fout true
    else validGo rest fin fout ferr

/-- `isValidInput` from 1730sh.cpp.  The empty-token case (whitespace-only
input) is unreachable through the REPL, which trims and skips empty lines;
the C++ `argv[0]` access there has no defined behaviour, and we let the
function accept, which is also what the claim's conditions (all vacuously
false) prescribe. -/
def isValidInput (s : String) : Bool :=
  if s.toList.isEmpty then true
  else
    match tokenize s with
    | [] => true
    | a :: rest => if a = "|" then false else validGo (a :: rest) false false false

-- ===================== REPL per-line decision (main, lines 362-376) =====================

inductive ReplAct
  | empty
  | invalid
  | hangQuote
  | hangPipe
  | launch
deriving DecidableEq, Repr

def lastCharIs (s : String) (c : Char) : Bool :=
  match s.toList.getLast? with
  | some d => d = c
  | none => false

/-- The REPL's classification of a freshly read line: trim it, skip empty
input, report invalid syntax, request quote continuation when there is an
odd number of unescaped quotes, request pipe continuation on a trailing
`|`, otherwise launch. -/
def replDecision (s : String) : ReplAct :=
  if trim s = "" then .empty
  else if isValidInput (trim s) then
    if hasQuotes (trim s) && !hasEvenQuotes (trim s) then .hangQuote
    else if lastCharIs (trim s) '|' then .hangPipe
    else .launch
  else .invalid

/-- A line is accepted (a job gets built and launched) exactly when the
REPL classification is `launch`. -/
def accept (s : String) : Bool :=
  match replDecision s with
  | .launch => true
  | _ => false

-- ===================== Process / inputToProcesses (Input.cpp) =====================

/-- The `Process` struct of Input.h (`args` holds the argv strings). -/
structure ProcessL where
  PID : Int
  PGID : Int
  stopped : Bool
  completed : Bool
  hasPipe : Bool
  args : List String
deriving DecidableEq, Repr

/-- `Process p;` default member initialisation followed by pushing the
first argument. -/
def newProcess (t : String) : ProcessL := ⟨-1, -1, false, false, false, [t]⟩

/-- The five redirection operator lexemes tested by the big guard in
`inputToProcesses`. -/
def Rops : List String := ["<", ">", ">>", "e>", "e>>"]

def markLastPipe : List ProcessL → List ProcessL
  | [] => []
  | [p] => [⟨p.PID, p.PGID, p.stopped, p.completed, true, p.args⟩]
  | p :: q :: r => p :: markLastPipe (q :: r)

def pushLastArg : List ProcessL → String → List ProcessL
  | [], _ => []
  | [p], t => [⟨p.PID, p.PGID, p.stopped, p.completed, p.hasPipe, p.args ++ [t]⟩]
  | p :: q :: r, t => p :: pushLastArg (q :: r) t

/-- Loop body of `inputToProcesses` for index `i ≥ 1`, where `prev` is
`processed_argv[i-1]` and `t` is `processed_argv[i]`:
a token after `|` starts a new process; the guard skips any token that is a
redirection operator or follows one; `|` marks the last process as piped;
`&` is dropped; anything else is appended to the last process's argv. -/
def itpStep (acc : List ProcessL) (prev t : String) : List ProcessL :=
  if prev = "|" then acc ++ [newProcess t]
  else if t ∈ Rops ∨ prev ∈ Rops then acc
  else if t = "|" then markLastPipe acc
  else if t = "&" then acc
  else pushLastArg acc t

def itpGo : List ProcessL → String → List String → List ProcessL
  | acc, _, [] => acc
  | acc, prev, t :: rest => itpGo (itpStep acc prev t) t rest

/-- `Input::inputToProcesses` acting on the processed token list: the first
token unconditionally becomes the first process's argv[0]. -/
def inputToProcesses (toks : List String) : List ProcessL :=
  match toks with
  | [] => []
  | t :: rest => itpGo [newProcess t] t rest

/-- `Input::getNumPipes`: count the processes whose hasPipe flag is set. -/
def getNumPipes (ps : List ProcessL) : Nat := ps.countP (fun p => p.hasPipe)

/-- `Input::isStopped`: false iff some process is neither stopped nor
completed. -/
def isStopped (ps : List ProcessL) : Bool := ps.all (fun p => p.stopped || p.completed)

/-- `Input::isCompleted`: false iff some process is not completed. -/
def isCompleted (ps : List ProcessL) : Bool := ps.all (fun p => p.completed)

-- ===================== the Input object (constructor) =====================

/-- `setSTDIN`/`setSTDOUT`/`setSTDERR` scan: find the first adjacent pair
whose first component is one of the given operators, returning
(type, operand). -/
def scanRedirectGo (ops : List String) : List String → Option (String × String)
  | [] => none
  | [_] => none
  | a :: b :: rest => if a ∈ ops then some (a, b) else scanRedirectGo ops (b :: rest)

/-- The Input class fields set by the constructor. -/
structure InputJob where
  shellInput : String
  foreground : Bool
  fdSTDIN : String
  fdSTDOUT : String
  tySTDOUT : String
  fdSTDERR : String
  tySTDERR : String
  processes : List ProcessL
deriving DecidableEq, Repr

def processedToks (s : String) : List String := processArgv (tokenize (trim s))

/-- The `Input(string)` constructor: trim, set the foreground flag from a
trailing `&` character, derive the three redirection targets from the
processed tokens (sentinel strings STDIN_FILENO etc. mean "no
redirection"), and build the process vector. -/
def mkInput (s : String) : InputJob :=
  let t := trim s
  let ptoks := processArgv (tokenize t)
  ⟨t,
   !(lastCharIs t '&'),
   (match scanRedirectGo ["<"] ptoks with
    | some x => x.2
    | none => "STDIN_FILENO"),
   (match scanRedirectGo [">>", ">"] ptoks with
    | some x => x.2
    | none => "STDOUT_FILENO"),
   (match scanRedirectGo [">>", ">"] ptoks with
    | some x => x.1
    | none => ""),
   (match scanRedirectGo ["e>", "e>>"] ptoks with
    | some x => x.2
    | none => "STDERR_FILENO"),
   (match scanRedirectGo ["e>", "e>>"] ptoks with
    | some x => x.1
    | none => ""),
   inputToProcesses ptoks⟩

-- ===================== redirection resolver (set_redirects) =====================

/-- The open flags+mode combinations used by `set_redirects`:
`O_RDONLY`; `O_CREAT|O_WRONLY|O_TRUNC` with mode 0644;
`O_CREAT|O_WRONLY|O_APPEND` with mode 0666. -/
inductive OpenFlags
  | rdonly
  | creatTrunc644
  | creatApp666
deriving DecidableEq, Repr

/-- A resolved descriptor: either an inherited standard stream
(STDIN_FILENO = 0, STDOUT_FILENO = 1, STDERR_FILENO = 2) or a freshly
opened file. -/
inductive RDesc
  | std (n : Nat)
  | file (path : String) (fl : OpenFlags)
deriving DecidableEq, Repr

structure RedirErr where
  path : String
  msg : String
deriving DecidableEq, Repr

inductive RedirResult
  | ok (din dout derr : RDesc)
  | err (e : RedirErr)
deriving DecidableEq, Repr

/-- The file-system oracle: whether `open(path, O_RDONLY)` succeeds
(the file exists) and whether a create-for-write open succeeds. -/
structure SysFS where
  fileExists : String → Bool
  canCreate : String → Bool

def noSuchFileMsg (p : String) : String :=
  "1730sh: " ++ p ++ ": No such file or directory"

def cannotOpenMsg (p : String) : String :=
  "1730sh: `" ++ p ++ "' cannot be opened"

def resolveIn (fs : SysFS) (job : InputJob) : Sum RDesc RedirErr :=
  if job.fdSTDIN = "STDIN_FILENO" then .inl (.std 0)
  else if fs.fileExists job.fdSTDIN then .inl (.file job.fdSTDIN .rdonly)
  else .inr ⟨job.fdSTDIN, noSuchFileMsg job.fdSTDIN⟩

def resolveOut (fs : SysFS) (job : InputJob) : Sum RDesc RedirErr :=
  if job.fdSTDOUT = "STDOUT_FILENO" then .inl (.std 1)
  else if job.tySTDOUT = ">" then
    if fs.canCreate job.fdSTDOUT then .inl (.file job.fdSTDOUT .creatTrunc644)
    else .inr ⟨job.fdSTDOUT, cannotOpenMsg job.fdSTDOUT⟩
  else
    if fs.canCreate job.fdSTDOUT then .inl (.file job.fdSTDOUT .creatApp666)
    else .inr ⟨job.fdSTDOUT, cannotOpenMsg job.fdSTDOUT⟩

def resolveErr (fs : SysFS) (job : InputJob) : Sum RDesc RedirErr :=
  if job.fdSTDERR = "STDERR_FILENO" then .inl (.std 2)
  else if job.tySTDERR = "e>" then
    if fs.canCreate job.fdSTDERR then .inl (.file job.fdSTDERR .creatTrunc644)
    else .inr ⟨job.fdSTDERR, cannotOpenMsg job.fdSTDERR⟩
  else
    if fs.canCreate job.fdSTDERR then .inl (.file job.fdSTDERR .creatApp666)
    else .inr ⟨job.fdSTDERR, cannotOpenMsg job.fdSTDERR⟩

/-- `set_redirects` from 1730sh.cpp: resolve stdin, stdout, stderr in that
order, returning -1 (an error) as soon as one open fails. -/
def set_redirects (fs : SysFS) (job : InputJob) : RedirResult :=
  match resolveIn fs job with
  | .inr e => .err e
  | .inl din =>
    match resolveOut fs job with
    | .inr e => .err e
    | .inl dout =>
      match resolveErr fs job with
      | .inr e => .err e
      | .inl derr => .ok din dout derr

-- ===================== launch step of main (lines 378-461) =====================

def builtinNames : List String :=
  ["cd", "exit", "help", "bg", "fg", "export", "jobs", "kill"]

/-- `isBuiltIn` from 1730sh.cpp (a chain of string comparisons). -/
def isBuiltIn (c : String) : Bool := builtinNames.contains c

def defaultProcess : ProcessL := ⟨-1, -1, false, false, false, []⟩

def firstArgv0 (job : InputJob) : String :=
  (job.processes.headD defaultProcess).args.headD ""

/-- Outcome of one launch attempt: how many children were forked, the job
table afterwards, what got printed, and whether the REPL `continue`d to the
next prompt without launching. -/
structure LaunchOut where
  forks : Nat
  table : List (Option InputJob)
  printed : List String
  continued : Bool
deriving DecidableEq, Repr

/-- The launch section of `main` for an accepted line: build the Input,
resolve the redirections; on failure delete the job and `continue`; a
single built-in runs in-process (no fork, not entered into current_jobs);
otherwise one fork per process and the job is appended to current_jobs. -/
def launchLine (fs : SysFS) (s : String) (table : List (Option InputJob)) : LaunchOut :=
  let job := mkInput s
  match set_redirects fs job with
  | .err e => ⟨0, table, [e.msg], true⟩
  | .ok _ _ _ =>
    if job.processes.length = 1 && isBuiltIn (firstArgv0 job) then
      ⟨0, table, [], false⟩
    else
      ⟨job.processes.length, table ++ [some job], [], false⟩

-- ===================== built-in stdio wiring (main lines 390-396) =====================

/-- What a shell standard descriptor refers to after the built-in path:
either still the terminal stream it started as, or a redirect target. -/
inductive StdTarget
  | tty (n : Nat)
  | redirected (path : String) (fl : OpenFlags)
deriving DecidableEq, Repr

/-- Effect of `dup2(resolved, k)` on shell descriptor `k`: an inherited
standard descriptor leaves it alone (`dup2(k,k)`), an opened file makes
`k` refer to that file. -/
def afterDup : RDesc → Nat → StdTarget
  | .std _, k => .tty k
  | .file p fl, _ => .redirected p fl

/-- The built-in short-circuit of `main`:
`do_redirects(fd_STDIN, fd_STDOUT, fd_STDERR)` dup2s the resolved
descriptors onto 0/1/2, `close_redirects` closes the now-duplicated file
descriptors (it does not touch 0/1/2), `callBuiltIn` runs, and control
`continue`s — no code saves or restores the original 0/1/2. -/
def builtinPathFds (din dout derr : RDesc) : StdTarget × StdTarget × StdTarget :=
  (afterDup din 0, afterDup dout 1, afterDup derr 2)

-- ===================== exit built-in (exit_builtin / callBuiltIn) =====================

def digitsToNat (l : List Char) : Nat :=
  l.foldl (fun a c => a * 10 + (c.toNat - 48)) 0

def isNumberStr (s : String) : Bool :=
  !s.toList.isEmpty && s.toList.all Char.isDigit

/-- `exit_builtin`: no argument yields `last_exit_status`; one argument is
accepted when it is all digits and, via `stoi`, fits in an `int`
(INT_MAX = 2147483647) — an empty string or an overflow makes `stoi`
throw, handled as the error value -1; any other argument count is a usage
error (-1). -/
def exit_builtin (args : List String) (last : Int) : Int :=
  match args with
  | [_] => last
  | [_, a] =>
    if a.toList.all Char.isDigit then
      if a.toList.isEmpty then -1
      else if digitsToNat a.toList ≤ 2147483647 then (digitsToNat a.toList : Int)
      else -1
    else -1
  | _ => -1

structure ExitResult where
  exited : Option Int
  lastExit : Int
  table : List (Option InputJob)
deriving DecidableEq, Repr

/-- The `exit` branch of `callBuiltIn`: compute the status; if it is not
-1, every remaining current_jobs entry is deleted and `exit(status)` runs;
otherwise the shell stays alive with `last_exit_status = EXIT_FAILURE`. -/
def callBuiltIn_exit (args : List String) (last : Int)
    (table : List (Option InputJob)) : ExitResult :=
  let status := exit_builtin args last
  if status ≠ -1 then ⟨some status, status, table.map (fun _ => none)⟩
  else ⟨none, 1, table⟩

-- ===================== index-instrumented inputToProcesses (for C6) =====================

/-- `inputToProcesses` again, with every token paired with its position in
the processed token list; the control flow compares only the string
components, so erasing the indices recovers the original function
(theorem `eraseI_inputToProcessesI` below). -/
structure ProcessI where
  hasPipe : Bool
  args : List (Nat × String)
deriving DecidableEq, Repr

def newProcessI (t : Nat × String) : ProcessI := ⟨false, [t]⟩

def markLastPipeI : List ProcessI → List ProcessI
  | [] => []
  | [p] => [⟨true, p.args⟩]
  | p :: q :: r => p :: markLastPipeI (q :: r)

def pushLastArgI : List ProcessI → (Nat × String) → List ProcessI
  | [], _ => []
  | [p], t => [⟨p.hasPipe, p.args ++ [t]⟩]
  | p :: q :: r, t => p :: pushLastArgI (q :: r) t

def itpStepI (acc : List ProcessI) (prev t : Nat × String) : List ProcessI :=
  if prev.2 = "|" then acc ++ [newProcessI t]
  else if t.2 ∈ Rops ∨ prev.2 ∈ Rops then acc
  else if t.2 = "|" then markLastPipeI acc
  else if t.2 = "&" then acc
  else pushLastArgI acc t

def itpGoI : List ProcessI → (Nat × String) → List (Nat × String) → List ProcessI
  | acc, _, [] => acc
  | acc, prev, t :: rest => itpGoI (itpStepI acc prev t) t rest

def enumFromL : Nat → List String → List (Nat × String)
  | _, [] => []
  | n, a :: l => (n, a) :: enumFromL (n + 1) l

def inputToProcessesI (toks : List (Nat × String)) : List ProcessI :=
  match toks with
  | [] => []
  | t :: rest => itpGoI [newProcessI t] t rest

def eraseP (p : ProcessI) : ProcessL :=
  ⟨-1, -1, false, false, p.hasPipe, p.args.map (fun x => x.2)⟩

def eraseI (l : List ProcessI) : List ProcessL := l.map eraseP

/-- Index accuracy and the two placement facts claimed for parsed argv
entries: the string is the token at that index; the preceding token is
never a redirection operator (operands are consumed); and a redirection
operator can itself appear only as a partition's first token (index 0 or
right after a `|`). -/
def GoodArg (toks : List String) (x : Nat × String) : Prop :=
  toks.get? x.1 = some x.2 ∧
  (∀ b, 1 ≤ x.1 → toks.get? (x.1 - 1) = some b → b ∉ Rops) ∧
  (x.2 ∈ Rops → x.1 = 0 ∨ toks.get? (x.1 - 1) = some "|")

/-- Adjacent indices: each element's index is its predecessor's plus one. -/
def consecFrom : (Nat × String) → List (Nat × String) → Prop
  | _, [] => True
  | x, y :: r => y.1 = x.1 + 1 ∧ consecFrom y r

-- ===================== side conditions for the amended C4 =====================

/-- Every `|` token is immediately preceded by an ordinary token (not a
redirection operator, not another `|`) and is not the last token. -/
def okPipes : String → List String → Bool
  | _, [] => true
  | prev, t :: rest =>
    (if t = "|" then decide (prev ∉ Rops) && decide (prev ≠ "|") && !rest.isEmpty
     else true) && okPipes t rest

def goodPipes (toks : List String) : Bool :=
  match toks with
  | [] => false
  | t :: rest => decide (t ≠ "|") && okPipes t rest

-- ===================== theorems: trim helpers =====================

theorem dropWs_nil : dropWs [] = [] := rfl

theorem dropWs_cons_not (c : Char) (t : List Char) (h : wsChar c = false) :
    dropWs (c :: t) = c :: t := by
  simp [dropWs, h]

theorem dropWs_head_not :
    ∀ (l : List Char) (c : Char) (t : List Char), dropWs l = c :: t → wsChar c = false := by
  intro l
  induction l with
  | nil => intro c t h; simp [dropWs] at h
  | cons a r ih =>
    intro c t h
    by_cases ha : wsChar a
    · simp [dropWs, ha] at h
      exact ih c t h
    · simp [dropWs, ha] at h
      rcases h with ⟨h1, _⟩
      subst h1
      simp [ha]

theorem dropWs_suffix :
    ∀ l : List Char, ∃ w, l = w ++ dropWs l ∧ ∀ c ∈ w, wsChar c = true := by
  intro l
  induction l with
  | nil => exact ⟨[], rfl, by simp⟩
  | cons a r ih =>
    by_cases ha : wsChar a
    · rcases ih with ⟨w, hw, hws⟩
      refine ⟨a :: w, ?_, ?_⟩
      · simp [dropWs, ha]
        exact hw
      · intro c hc
        rcases List.mem_cons.mp hc with h | h
        · simpa [h] using ha
        · exact hws c h
    · exact ⟨[], by simp [dropWs, ha], by simp⟩

theorem dropWs_all_ws :
    ∀ l : List Char, (∀ c ∈ l, wsChar c = true) → dropWs l = [] := by
  intro l
  induction l with
  | nil => intro _; rfl
  | cons a r ih =>
    intro h
    have ha : wsChar a = true := h a (by simp)
    simp [dropWs, ha]
    exact ih (fun c hc => h c (by simp [hc]))

theorem dropWs_getLast? :
    ∀ l : List Char, dropWs l ≠ [] → (dropWs l).getLast? = l.getLast? := by
  intro l h
  rcases dropWs_suffix l with ⟨w, hw, _⟩
  conv_rhs => rw [hw]
  exact (List.getLast?_append_of_ne_nil w h).symm

theorem trimL_head_not (l : List Char) (c : Char) (t : List Char)
    (h : trimL l = c :: t) : wsChar c = false :=
  dropWs_head_not _ c t h

theorem trimL_getLast_not (l : List Char) (c : Char)
    (h : (trimL l).getLast? = some c) : wsChar c = false := by
  have hne : trimL l ≠ [] := by
    intro hnil
    rw [hnil] at h
    simp at h
  have h1 : (trimL l).getLast? = ((dropWs l.reverse).reverse).getLast? := by
    unfold trimL at hne ⊢
    exact dropWs_getLast? _ hne
  rw [h1, List.getLast?_reverse] at h
  rcases hd : dropWs l.reverse with _ | ⟨d, t'⟩
  · rw [hd] at h; simp at h
  · rw [hd] at h
    simp at h
    have := dropWs_head_not l.reverse d t' hd
    rw [h] at this
    exact this

theorem trimL_idem (l : List Char) : trimL (trimL l) = trimL l := by
  rcases hu : trimL l with _ | ⟨c, t⟩
  · rfl
  · have hhead : wsChar c = false := trimL_head_not l c t hu
    have hlast : ∀ d, (c :: t).getLast? = some d → wsChar d = false := by
      intro d hd
      exact trimL_getLast_not l d (by rw [hu]; exact hd)
    rcases hr : (c :: t).reverse with _ | ⟨d, t2⟩
    · have hlen := congrArg List.length hr
      simp at hlen
    · have hd : (c :: t).getLast? = some d := by
        rw [← List.head?_reverse, hr]; rfl
      have hdws : wsChar d = false := hlast d hd
      unfold trimL
      rw [hr, dropWs_cons_not d t2 hdws, ← hr, List.reverse_reverse,
        dropWs_cons_not c t hhead]

/-- Claim C10: the trim helper is idempotent; its result never begins or
ends with a space or tab; and trimming a string of only spaces and tabs
(the empty string included) yields the empty string. -/
theorem claimC10 (s : String) :
    trim (trim s) = trim s ∧
    (∀ c t, (trim s).toList = c :: t → wsChar c = false) ∧
    (∀ c, (trim s).toList.getLast? = some c → wsChar c = false) ∧
    ((∀ c ∈ s.toList, wsChar c = true) → trim s = "") := by
  refine ⟨?_, ?_, ?_, ?_⟩
  · show String.mk (trimL (String.mk (trimL s.toList)).toList) = String.mk (trimL s.toList)
    have : (String.mk (trimL s.toList)).toList = trimL s.toList := rfl
    rw [this, trimL_idem]
  · intro c t h
    exact trimL_head_not s.toList c t h
  · intro c h
    exact trimL_getLast_not s.toList c h
  · intro h
    show String.mk (trimL s.toList) = ""
    have h1 : dropWs s.toList.reverse = [] := by
      refine dropWs_all_ws _ ?_
      intro c hc
      exact h c (by simpa using hc)
    unfold trimL
    rw [h1]
    rfl

theorem claimC10_witness :
    trim (trim " a ") = trim " a " ∧ wsChar 'a' = false :=
  ⟨(claimC10 " a ").1, (claimC10 " a ").2.1 'a' [] (by decide)⟩

-- ===================== theorems: C9 (isCompleted implies isStopped) =====================

/-- Claim C9: for every flag assignment, a job in which every process has
completed also satisfies the stopped-or-completed predicate, so
`isCompleted` implies `isStopped`. -/
theorem claimC9 (ps : List ProcessL) (h : isCompleted ps = true) :
    isStopped ps = true := by
  unfold isCompleted at h
  unfold isStopped
  rw [List.all_eq_true] at h ⊢
  intro p hp
  have := h p hp
  simp [this]

theorem claimC9_witness :
    isStopped [⟨-1, -1, false, true, false, ["a"]⟩] = true :=
  claimC9 [⟨-1, -1, false, true, false, ["a"]⟩] (by decide)

-- ===================== theorems: quote counting =====================

theorem wsChar_cases (c : Char) (h : wsChar c = true) : c = ' ' ∨ c = '\t' := by
  simpa [wsChar] using h

theorem ws_ne_quote (c : Char) (h : wsChar c = true) : ¬(c = quoteChar) := by
  rcases wsChar_cases c h with h1 | h1 <;> subst h1 <;> decide

theorem ws_ne_bs (c : Char) (h : wsChar c = true) : ¬(c = backslashChar) := by
  rcases wsChar_cases c h with h1 | h1 <;> subst h1 <;> decide

theorem quoteCountAux_irrelPrev :
    ∀ (l : List Char) (p q : Option Char),
      p ≠ some backslashChar → q ≠ some backslashChar →
      quoteCountAux p l = quoteCountAux q l := by
  intro l
  induction l with
  | nil => intros; rfl
  | cons c r ih =>
    intro p q hp hq
    simp [quoteCountAux, hp, hq]

theorem quoteCountAux_ws_zero :
    ∀ (l : List Char) (p : Option Char),
      (∀ c ∈ l, wsChar c = true) → quoteCountAux p l = 0 := by
  intro l
  induction l with
  | nil => intros; rfl
  | cons c r ih =>
    intro p h
    have hc : wsChar c = true := h c (by simp)
    have hq := ws_ne_quote c hc
    simp [quoteCountAux, hq]
    exact ih (some c) (fun d hd => h d (by simp [hd]))

theorem quoteCountAux_append_ws :
    ∀ (l m : List Char) (p : Option Char),
      (∀ c ∈ m, wsChar c = true) →
      quoteCountAux p (l ++ m) = quoteCountAux p l := by
  intro l
  induction l with
  | nil =>
    intro m p h
    simpa [quoteCountAux] using quoteCountAux_ws_zero m p h
  | cons c r ih =>
    intro m p h
    simp [quoteCountAux]
    exact ih m (some c) h

theorem quoteCountAux_dropWs :
    ∀ (l : List Char) (p : Option Char),
      p ≠ some backslashChar →
      quoteCountAux p (dropWs l) = quoteCountAux p l := by
  intro l
  induction l with
  | nil => intros; rfl
  | cons c r ih =>
    intro p hp
    by_cases hc : wsChar c
    · have hq := ws_ne_quote c hc
      have hb : (some c : Option Char) ≠ some backslashChar := by
        intro h
        exact ws_ne_bs c hc (by injection h)
      rw [show dropWs (c :: r) = dropWs r by simp [dropWs, hc]]
      rw [ih p hp]
      simp [quoteCountAux, hq]
      exact quoteCountAux_irrelPrev r p (some c) hp hb
    · rw [dropWs_cons_not c r (by simpa using hc)]

theorem quoteCount_trim (s : String) : quoteCount (trim s) = quoteCount s := by
  show quoteCountAux none (trimL s.toList) = quoteCountAux none s.toList
  unfold trimL
  rw [quoteCountAux_dropWs _ none (by simp)]
  rcases dropWs_suffix s.toList.reverse with ⟨w, hw, hws⟩
  have hdec : s.toList = (dropWs s.toList.reverse).reverse ++ w.reverse := by
    have := congrArg List.reverse hw
    simpa using this
  conv_rhs => rw [hdec]
  rw [quoteCountAux_append_ws _ _ none (fun c hc => hws c (List.mem_reverse.mp hc))]

theorem hasQuotesL_iff :
    ∀ (l : List Char) (p : Option Char),
      hasQuotesL p l = true ↔ quoteCountAux p l ≠ 0 := by
  intro l
  induction l with
  | nil => intro p; simp [hasQuotesL, quoteCountAux]
  | cons c r ih =>
    intro p
    by_cases hcq : c = quoteChar <;> by_cases hpb : p = some backslashChar <;>
      simp [hasQuotesL, quoteCountAux, hcq, hpb, ih]

-- ===================== theorems: C7 (quote continuation) =====================

/-- Claim C7 counterexample: the line consisting of `|`, a space and one
double-quote has an odd unescaped-quote count, yet the REPL classifies it
as invalid syntax and does not request continuation — so the claimed
"for every input line" equivalence is false on the code. -/
theorem claimC7_cex :
    quoteCount "| \"" % 2 = 1 ∧ replDecision "| \"" ≠ ReplAct.hangQuote := by
  constructor
  · decide
  · decide

/-- Claim C7 amended: for every input line that passes the validator after
trimming, the REPL requests quote continuation (the `> ` prompt whose text
is appended with no joining separator) iff the count of unescaped `"`
characters in the line is odd, a `"` counting as escaped exactly when the
immediately preceding character is a backslash. -/
theorem claimC7_amended (s : String) (hv : isValidInput (trim s) = true) :
    replDecision s = ReplAct.hangQuote ↔ quoteCount s % 2 = 1 := by
  rw [← quoteCount_trim s]
  by_cases ht : trim s = ""
  · rw [ht]
    simp [replDecision, ht]
    decide
  · by_cases hq : (hasQuotes (trim s) && !hasEvenQuotes (trim s)) = true
    · have hdec : replDecision s = ReplAct.hangQuote := by
        unfold replDecision
        rw [if_neg ht, if_pos hv, if_pos hq]
      have hq2 := hq
      simp [hasEvenQuotes] at hq2
      constructor
      · intro _
        omega
      · intro _
        exact hdec
    · have hdec : replDecision s ≠ ReplAct.hangQuote := by
        unfold replDecision
        rw [if_neg ht, if_pos hv, if_neg hq]
        by_cases hl : lastCharIs (trim s) '|' = true
        · rw [if_pos hl]
          intro h
          cases h
        · rw [if_neg hl]
          intro h
          cases h
      have hq2 := hq
      simp [hasEvenQuotes] at hq2
      have heven : quoteCount (trim s) % 2 = 0 := by
        by_cases hh : hasQuotes (trim s) = true
        · exact hq2 hh
        · have h0 : quoteCountAux none (trim s).toList = 0 := by
            by_contra hne
            exact hh ((hasQuotesL_iff (trim s).toList none).mpr hne)
          show quoteCountAux none (trim s).toList % 2 = 0
          rw [h0]
      constructor
      · intro h
        exact absurd h hdec
      · intro h
        omega

theorem claimC7_witness : replDecision "a \"" = ReplAct.hangQuote :=
  (claimC7_amended "a \"" (by decide)).mpr (by decide)

-- ===================== theorems: validator =====================

theorem validGo_false_iff :
    ∀ (toks : List String) (fin fout ferr : Bool),
      validGo toks fin fout ferr = false ↔
        (2 ≤ cIn toks + (if fin then 1 else 0) ∨
         2 ≤ cOut toks + (if fout then 1 else 0) ∨
         2 ≤ cErr toks + (if ferr then 1 else 0)) := by
  intro toks
  induction toks with
  | nil =>
    intro fin fout ferr
    cases fin <;> cases fout <;> cases ferr <;> simp [validGo, cIn, cOut, cErr]
  | cons a rest ih =>
    intro fin fout ferr
    by_cases h1 : a = "<"
    · subst h1
      have e1 : cIn ("<" :: rest) = 1 + cIn rest := by simp [cIn]
      have e2 : cOut ("<" :: rest) = cOut rest := by simp [cOut]
      have e3 : cErr ("<" :: rest) = cErr rest := by simp [cErr]
      cases fin
      · have ev : validGo ("<" :: rest) false fout ferr = validGo rest true fout ferr := by
          simp [validGo]
        rw [ev, ih true fout ferr, e1, e2, e3]
        cases fout <;> cases ferr <;> simp <;> omega
      · have ev : validGo ("<" :: rest) true fout ferr = false := by
          simp [validGo]
        rw [ev, e1, e2, e3]
        simp
    · by_cases h2 : a = ">" ∨ a = ">>"
      · have e1 : cIn (a :: rest) = cIn rest := by simp [cIn, h1]
        have e2 : cOut (a :: rest) = 1 + cOut rest := by simp [cOut, h2]
        have e3 : cErr (a :: rest) = cErr rest := by
          rcases h2 with h | h <;> subst h <;> simp [cErr]
        have ev : validGo (a :: rest) fin fout ferr =
            if fout then false else validGo rest fin true ferr := by
          simp only [validGo]
          rw [if_neg h1, if_pos h2]
        cases fout
        · rw [ev, if_neg (by simp), ih fin true ferr, e1, e2, e3]
          cases fin <;> cases ferr <;> simp <;> omega
        · rw [ev, if_pos rfl, e1, e2, e3]
          simp
      · by_cases h3 : a = "e>" ∨ a = "e>>"
        · have e1 : cIn (a :: rest) = cIn rest := by simp [cIn, h1]
          have e2 : cOut (a :: rest) = cOut rest := by simp [cOut, h2]
          have e3 : cErr (a :: rest) = 1 + cErr rest := by simp [cErr, h3]
          have ev : validGo (a :: rest) fin fout ferr =
              if ferr then false else validGo rest fin fout true := by
            simp only [validGo]
            rw [if_neg h1, if_neg h2, if_pos h3]
          cases ferr
          · rw [ev, if_neg (by simp), ih fin fout true, e1, e2, e3]
            cases fin <;> cases fout <;> simp <;> omega
          · rw [ev, if_pos rfl, e1, e2, e3]
            simp
        · have e1 : cIn (a :: rest) = cIn rest := by simp [cIn, h1]
          have e2 : cOut (a :: rest) = cOut rest := by simp [cOut, h2]
          have e3 : cErr (a :: rest) = cErr rest := by simp [cErr, h3]
          have ev : validGo (a :: rest) fin fout ferr = validGo rest fin fout ferr := by
            simp only [validGo]
            rw [if_neg h1, if_neg h2, if_neg h3]
          rw [ev, ih fin fout ferr, e1, e2, e3]

/-- Claim C3: the validator rejects an input line (so the REPL prints
`Invalid command syntax`, discards it and continues) precisely when the
first whitespace-separated token is `|`, or it contains more than one `<`
token, or more than one of `>`/`>>`, or more than one of `e>`/`e>>`;
lines violating none of these pass. -/
theorem claimC3 (s : String) :
    (isValidInput s = false ↔
      ((tokenize s).head? = some "|" ∨ 1 < cIn (tokenize s) ∨
       1 < cOut (tokenize s) ∨ 1 < cErr (tokenize s))) ∧
    (replDecision s = ReplAct.invalid ↔
      (trim s ≠ "" ∧ isValidInput (trim s) = false)) := by
  constructor
  · by_cases he : s.toList.isEmpty
    · have hnil : s.toList = [] := by simpa using he
      have ht : tokenize s = [] := by
        unfold tokenize
        rw [hnil]
        rfl
      have hvt : isValidInput s = true := by
        unfold isValidInput
        rw [if_pos he]
      rw [ht, hvt]
      simp [cIn, cOut, cErr]
    · rcases htok : tokenize s with _ | ⟨a, rest⟩
      · have hvt : isValidInput s = true := by
          unfold isValidInput
          rw [if_neg he, htok]
        rw [hvt]
        simp [cIn, cOut, cErr]
      · have hv : isValidInput s =
            (if a = "|" then false else validGo (a :: rest) false false false) := by
          unfold isValidInput
          rw [if_neg he, htok]
        by_cases hp : a = "|"
        · subst hp
          rw [hv, if_pos rfl]
          simp
        · rw [hv, if_neg hp]
          rw [validGo_false_iff (a :: rest) false false false]
          simp [hp]
          omega
  · unfold replDecision
    by_cases ht : trim s = ""
    · rw [if_pos ht]
      simp [ht]
    · rw [if_neg ht]
      by_cases hval : isValidInput (trim s) = true
      · rw [if_pos hval]
        constructor
        · intro h
          by_cases hq : (hasQuotes (trim s) && !hasEvenQuotes (trim s)) = true
          · rw [if_pos hq] at h
            cases h
          · rw [if_neg hq] at h
            by_cases hl : lastCharIs (trim s) '|' = true
            · rw [if_pos hl] at h
              cases h
            · rw [if_neg hl] at h
              cases h
        · intro h
          rw [hval] at h
          exact absurd h.2 (by simp)
      · rw [if_neg hval]
        have hf : isValidInput (trim s) = false := by
          cases hb : isValidInput (trim s)
          · rfl
          · exact absurd hb hval
        simp [ht, hf]

theorem claimC3_witness : isValidInput "| a" = false :=
  (claimC3 "| a").1.mpr (Or.inl (by decide))

-- ===================== theorems: pipeline construction (C4) =====================

theorem markLastPipe_append (xs : List ProcessL) (p : ProcessL) :
    markLastPipe (xs ++ [p]) =
      xs ++ [⟨p.PID, p.PGID, p.stopped, p.completed, true, p.args⟩] := by
  induction xs with
  | nil => rfl
  | cons q r ih =>
    cases r with
    | nil => rfl
    | cons q2 r2 =>
      show q :: markLastPipe ((q2 :: r2) ++ [p]) = q :: ((q2 :: r2) ++ _)
      rw [ih]

theorem pushLastArg_append (xs : List ProcessL) (p : ProcessL) (t : String) :
    pushLastArg (xs ++ [p]) t =
      xs ++ [⟨p.PID, p.PGID, p.stopped, p.completed, p.hasPipe, p.args ++ [t]⟩] := by
  induction xs with
  | nil => rfl
  | cons q r ih =>
    cases r with
    | nil => rfl
    | cons q2 r2 =>
      show q :: pushLastArg ((q2 :: r2) ++ [p]) t = q :: ((q2 :: r2) ++ _)
      rw [ih]

theorem countPipes_cons (a : String) (r : List String) :
    List.count "|" (a :: r) = (if a = "|" then 1 else 0) + List.count "|" r := by
  by_cases h : a = "|"
  · subst h
    simp [List.count_cons]
    omega
  · simp [List.count_cons, h]

/-- Structure of the `inputToProcesses` loop under the well-formedness
side condition `okPipes`: the accumulator stays of the form
"all-piped processes followed by one unpiped process", and its final
length is one more than the number of `|` tokens. -/
theorem itpGo_structure :
    ∀ (rest : List String) (front : List ProcessL) (lastP : ProcessL) (prev : String),
      okPipes prev rest = true →
      (prev = "|" → rest ≠ []) →
      (∀ p ∈ front, p.hasPipe = true) →
      lastP.hasPipe = (if prev = "|" then true else false) →
      ∃ front2 last2,
        itpGo (front ++ [lastP]) prev rest = front2 ++ [last2] ∧
        (∀ p ∈ front2, p.hasPipe = true) ∧
        last2.hasPipe = false ∧
        front2.length + 1 =
          front.length + 1 + (if prev = "|" then 1 else 0) + List.count "|" rest := by
  intro rest
  induction rest with
  | nil =>
    intro front lastP prev _ hp hf hl
    by_cases hprev : prev = "|"
    · exact absurd rfl (hp hprev)
    · refine ⟨front, lastP, rfl, hf, by simpa [hprev] using hl, by simp [hprev]⟩
  | cons t rest2 ih =>
    intro front lastP prev hok hp hf hl
    have hok2 : okPipes t rest2 = true := by
      have := hok
      unfold okPipes at this
      exact (Bool.and_eq_true_iff.mp this).2
    have hokhd :
        (if t = "|" then
          decide (prev ∉ Rops) && decide (prev ≠ "|") && !rest2.isEmpty
         else true) = true := by
      have := hok
      unfold okPipes at this
      exact (Bool.and_eq_true_iff.mp this).1
    by_cases hprev : prev = "|"
    · -- a new process is started with argv0 = t
      have ht : t ≠ "|" := by
        intro heq
        rw [if_pos heq] at hokhd
        have := (Bool.and_eq_true_iff.mp (Bool.and_eq_true_iff.mp hokhd).1).2
        simp [hprev] at this
      have hstep : itpStep (front ++ [lastP]) prev t =
          (front ++ [lastP]) ++ [newProcess t] := by
        unfold itpStep
        rw [if_pos hprev]
      have hlp : lastP.hasPipe = true := by simpa [hprev] using hl
      have hf2 : ∀ p ∈ front ++ [lastP], p.hasPipe = true := by
        intro p hmem
        rcases List.mem_append.mp hmem with h | h
        · exact hf p h
        · rw [List.mem_singleton.mp h]
          exact hlp
      rcases ih (front ++ [lastP]) (newProcess t) t hok2
          (fun heq => absurd heq ht) hf2 (by simp [newProcess, ht]) with
        ⟨front2, last2, heq, hfr, hla, hlen⟩
      refine ⟨front2, last2, ?_, hfr, hla, ?_⟩
      · show itpGo (itpStep (front ++ [lastP]) prev t) t rest2 = front2 ++ [last2]
        rw [hstep]
        rw [show (front ++ [lastP]) ++ [newProcess t] =
             (front ++ [lastP]) ++ [newProcess t] from rfl]
        exact heq
      · rw [countPipes_cons t rest2]
        simp [hprev, ht] at hlen ⊢
        omega
    · by_cases hpipe : t = "|"
      · -- mark the last process as piped
        subst hpipe
        rw [if_pos rfl] at hokhd
        have hnops : prev ∉ Rops := by
          have := (Bool.and_eq_true_iff.mp (Bool.and_eq_true_iff.mp hokhd).1).1
          simpa using this
        have hne : rest2 ≠ [] := by
          have := (Bool.and_eq_true_iff.mp hokhd).2
          simpa using this
        have hstep : itpStep (front ++ [lastP]) prev "|" =
            front ++ [⟨lastP.PID, lastP.PGID, lastP.stopped, lastP.completed,
              true, lastP.args⟩] := by
          unfold itpStep
          rw [if_neg hprev, if_neg (by
            intro hcon
            rcases hcon with h | h
            · exact absurd h (by decide)
            · exact hnops h), if_pos rfl]
          exact markLastPipe_append front lastP
        rcases ih front ⟨lastP.PID, lastP.PGID, lastP.stopped, lastP.completed,
            true, lastP.args⟩ "|" hok2 (fun _ => hne) hf (by simp) with
          ⟨front2, last2, heq, hfr, hla, hlen⟩
        refine ⟨front2, last2, ?_, hfr, hla, ?_⟩
        · show itpGo (itpStep (front ++ [lastP]) prev "|") "|" rest2 = front2 ++ [last2]
          rw [hstep]
          exact heq
        · rw [countPipes_cons "|" rest2]
          simp [hprev] at hlen ⊢
          omega
      · -- no new process, last process's pipe flag is unchanged
        have hlp : lastP.hasPipe = false := by simpa [hprev] using hl
        have hnext :
            ∃ last2arg, itpStep (front ++ [lastP]) prev t =
              front ++ [⟨lastP.PID, lastP.PGID, lastP.stopped, lastP.completed,
                false, last2arg⟩] := by
          unfold itpStep
          rw [if_neg hprev]
          by_cases hg : t ∈ Rops ∨ prev ∈ Rops
          · rw [if_pos hg]
            exact ⟨lastP.args, by
              have : lastP = ⟨lastP.PID, lastP.PGID, lastP.stopped, lastP.completed,
                  false, lastP.args⟩ := by
                cases lastP
                simp_all
              rw [← this]⟩
          · rw [if_neg hg, if_neg hpipe]
            by_cases ha : t = "&"
            · rw [if_pos ha]
              exact ⟨lastP.args, by
                have : lastP = ⟨lastP.PID, lastP.PGID, lastP.stopped, lastP.completed,
                    false, lastP.args⟩ := by
                  cases lastP
                  simp_all
                rw [← this]⟩
            · rw [if_neg ha]
              exact ⟨lastP.args ++ [t], by
                rw [pushLastArg_append, hlp]⟩
        rcases hnext with ⟨last2arg, hstep⟩
        rcases ih front ⟨lastP.PID, lastP.PGID, lastP.stopped, lastP.completed,
            false, last2arg⟩ t hok2 (fun heq => absurd heq hpipe) hf
            (by simp [hpipe]) with ⟨front2, last2, heq, hfr, hla, hlen⟩
        refine ⟨front2, last2, ?_, hfr, hla, ?_⟩
        · show itpGo (itpStep (front ++ [lastP]) prev t) t rest2 = front2 ++ [last2]
          rw [hstep]
          exact heq
        · rw [countPipes_cons t rest2]
          simp [hprev, hpipe] at hlen ⊢
          omega

theorem map_hasPipe_all_true :
    ∀ (l : List ProcessL), (∀ p ∈ l, p.hasPipe = true) →
      l.map (fun p => p.hasPipe) = List.replicate l.length true := by
  intro l
  induction l with
  | nil => intro _; rfl
  | cons a r ih =>
    intro h
    have ha := h a (by simp)
    rw [List.map_cons, ha, List.length_cons, List.replicate_succ,
      ih (fun p hp => h p (by simp [hp]))]

/-- Claim C4 counterexample: the accepted line `a > | b` partitions into
two stages, but the constructed job marks neither process as piped (the
`|` immediately follows the redirection operator `>` and the guard in
`inputToProcesses` skips it), so "exactly the first N−1 processes have
has_pipe = true" and "number of pipes equals N−1" both fail. -/
theorem claimC4_cex :
    accept "a > | b" = true ∧
    ¬((mkInput "a > | b").processes ≠ [] ∧
      (mkInput "a > | b").processes.length =
        List.count "|" (processedToks "a > | b") + 1 ∧
      (mkInput "a > | b").processes.map (fun p => p.hasPipe) =
        List.replicate ((mkInput "a > | b").processes.length - 1) true ++ [false] ∧
      getNumPipes (mkInput "a > | b").processes =
        (mkInput "a > | b").processes.length - 1) := by
  constructor
  · decide
  · decide

/-- Claim C4 amended: for every accepted line whose processed token
sequence does not start with `|` and in which every `|` token is
immediately preceded by a token that is neither a redirection operator nor
another `|` and is not the last token (`goodPipes`), the job's process
list has length N = (number of `|` tokens) + 1, is non-empty, exactly the
first N−1 processes have has_pipe = true with the last one false, and the
reported number of pipes is N−1. -/
theorem claimC4_amended (s : String)
    (_hacc : accept s = true)
    (hgood : goodPipes (processedToks s) = true) :
    (mkInput s).processes ≠ [] ∧
    (mkInput s).processes.length = List.count "|" (processedToks s) + 1 ∧
    (mkInput s).processes.map (fun p => p.hasPipe) =
      List.replicate ((mkInput s).processes.length - 1) true ++ [false] ∧
    getNumPipes (mkInput s).processes = (mkInput s).processes.length - 1 := by
  have hps : (mkInput s).processes = inputToProcesses (processedToks s) := rfl
  rcases htoks : processedToks s with _ | ⟨t, rest⟩
  · rw [htoks] at hgood
    simp [goodPipes] at hgood
  · rw [htoks] at hgood
    have hsplit : t ≠ "|" ∧ okPipes t rest = true := by
      simpa [goodPipes] using hgood
    rcases hsplit with ⟨htp, hok⟩
    rcases itpGo_structure rest [] (newProcess t) t hok (fun h => absurd h htp)
        (by intro p hp; cases hp) (by simp [newProcess, htp]) with
      ⟨front2, last2, heq, hfr, hla, hlen⟩
    have hinit : inputToProcesses (t :: rest) = front2 ++ [last2] := by
      show itpGo [newProcess t] t rest = front2 ++ [last2]
      exact heq
    rw [hps, htoks, hinit]
    have hcnt : List.count "|" (t :: rest) = List.count "|" rest := by
      rw [countPipes_cons t rest, if_neg htp]
      omega
    have hlen2 : front2.length + 1 = 1 + List.count "|" rest := by
      simpa [htp] using hlen
    refine ⟨by simp, ?_, ?_, ?_⟩
    · rw [hcnt]
      simp
      omega
    · rw [List.map_append, map_hasPipe_all_true front2 hfr]
      have : (front2 ++ [last2]).length - 1 = front2.length := by simp
      rw [this, List.map_singleton, hla]
    · unfold getNumPipes
      rw [List.countP_append, List.countP_eq_length.mpr (fun p hp => by
        simpa using hfr p hp)]
      have : List.countP (fun p => p.hasPipe) [last2] = 0 := by
        simp [List.countP, List.countP.go, hla]
      rw [this]
      simp

theorem claimC4_witness :
    (mkInput "a | b").processes ≠ [] ∧
    (mkInput "a | b").processes.length =
      List.count "|" (processedToks "a | b") + 1 ∧
    (mkInput "a | b").processes.map (fun p => p.hasPipe) =
      List.replicate ((mkInput "a | b").processes.length - 1) true ++ [false] ∧
    getNumPipes (mkInput "a | b").processes =
      (mkInput "a | b").processes.length - 1 :=
  claimC4_amended "a | b" (by decide) (by decide)

-- ===================== theorems: argv placement (C6) =====================

theorem markLastPipeI_mem :
    ∀ (acc : List ProcessI) (p : ProcessI),
      p ∈ markLastPipeI acc → ∃ q ∈ acc, p.args = q.args := by
  intro acc
  induction acc with
  | nil => intro p hp; cases hp
  | cons a r ih =>
    intro p hp
    cases r with
    | nil =>
      have hpa : p = ⟨true, a.args⟩ := by simpa [markLastPipeI] using hp
      exact ⟨a, by simp, by rw [hpa]⟩
    | cons b r2 =>
      have hp2 : p ∈ a :: markLastPipeI (b :: r2) := by
        simpa [markLastPipeI] using hp
      rcases List.mem_cons.mp hp2 with h | h
      · exact ⟨a, by simp, by rw [h]⟩
      · rcases ih p h with ⟨q, hq, hargs⟩
        exact ⟨q, by simp [hq], hargs⟩

theorem pushLastArgI_mem :
    ∀ (acc : List ProcessI) (t : Nat × String) (p : ProcessI),
      p ∈ pushLastArgI acc t →
      (∃ q ∈ acc, p.args = q.args) ∨ (∃ q ∈ acc, p.args = q.args ++ [t]) := by
  intro acc
  induction acc with
  | nil => intro t p hp; cases hp
  | cons a r ih =>
    intro t p hp
    cases r with
    | nil =>
      have hpa : p = ⟨a.hasPipe, a.args ++ [t]⟩ := by simpa [pushLastArgI] using hp
      exact Or.inr ⟨a, by simp, by rw [hpa]⟩
    | cons b r2 =>
      have hp2 : p ∈ a :: pushLastArgI (b :: r2) t := by
        simpa [pushLastArgI] using hp
      rcases List.mem_cons.mp hp2 with h | h
      · exact Or.inl ⟨a, by simp, by rw [h]⟩
      · rcases ih t p h with ⟨q, hq, hargs⟩ | ⟨q, hq, hargs⟩
        · exact Or.inl ⟨q, by simp [hq], hargs⟩
        · exact Or.inr ⟨q, by simp [hq], hargs⟩

theorem enumFromL_lookup :
    ∀ (l : List String) (n : Nat) (x : Nat × String),
      x ∈ enumFromL n l → n ≤ x.1 ∧ l.get? (x.1 - n) = some x.2 := by
  intro l
  induction l with
  | nil => intro n x hx; cases hx
  | cons a r ih =>
    intro n x hx
    rcases List.mem_cons.mp (by simpa [enumFromL] using hx) with h | h
    · subst h
      refine ⟨by simp, ?_⟩
      simp
    · rcases ih (n + 1) x h with ⟨hle, hget⟩
      refine ⟨by omega, ?_⟩
      have hx1 : x.1 - n = (x.1 - (n + 1)) + 1 := by omega
      rw [hx1, List.get?_cons_succ]
      exact hget

theorem consecFrom_enumFromL :
    ∀ (l : List String) (n : Nat) (a : String),
      consecFrom (n, a) (enumFromL (n + 1) l) := by
  intro l
  induction l with
  | nil => intro n a; exact trivial
  | cons b r ih =>
    intro n a
    exact ⟨rfl, ih (n + 1) b⟩

theorem itpGoI_good (toks : List String) :
    ∀ (rest : List (Nat × String)) (acc : List ProcessI) (prev : Nat × String),
      (∀ x ∈ prev :: rest, toks.get? x.1 = some x.2) →
      consecFrom prev rest →
      (∀ p ∈ acc, ∀ x ∈ p.args, GoodArg toks x) →
      ∀ p ∈ itpGoI acc prev rest, ∀ x ∈ p.args, GoodArg toks x := by
  intro rest
  induction rest with
  | nil =>
    intro acc prev _ _ hAcc
    exact hAcc
  | cons t rest2 ih =>
    intro acc prev hLook hCons hAcc
    have hLookPrev : toks.get? prev.1 = some prev.2 := hLook prev (by simp)
    have hLookT : toks.get? t.1 = some t.2 := hLook t (by simp)
    have hAdj : t.1 = prev.1 + 1 := hCons.1
    have hCons2 : consecFrom t rest2 := hCons.2
    have hLook2 : ∀ x ∈ t :: rest2, toks.get? x.1 = some x.2 :=
      fun x hx => hLook x (List.mem_cons_of_mem prev hx)
    apply ih (itpStepI acc prev t) t hLook2 hCons2
    intro p hp x hx
    unfold itpStepI at hp
    by_cases h1 : prev.2 = "|"
    · rw [if_pos h1] at hp
      rcases List.mem_append.mp hp with h | h
      · exact hAcc p h x hx
      · rw [List.mem_singleton.mp h] at hx
        have hxt : x = t := by simpa [newProcessI] using hx
        subst hxt
        refine ⟨hLookT, ?_, ?_⟩
        · intro b _ hb
          rw [hAdj, Nat.add_sub_cancel, hLookPrev] at hb
          have hbv : b = prev.2 := (Option.some_inj.mp hb).symm
          rw [hbv, h1]
          decide
        · intro _
          right
          rw [hAdj, Nat.add_sub_cancel, hLookPrev, h1]
    · rw [if_neg h1] at hp
      by_cases h2 : t.2 ∈ Rops ∨ prev.2 ∈ Rops
      · rw [if_pos h2] at hp
        exact hAcc p hp x hx
      · rw [if_neg h2] at hp
        by_cases h3 : t.2 = "|"
        · rw [if_pos h3] at hp
          rcases markLastPipeI_mem acc p hp with ⟨q, hq, hargs⟩
          exact hAcc q hq x (hargs ▸ hx)
        · rw [if_neg h3] at hp
          by_cases h4 : t.2 = "&"
          · rw [if_pos h4] at hp
            exact hAcc p hp x hx
          · rw [if_neg h4] at hp
            rcases pushLastArgI_mem acc t p hp with ⟨q, hq, hargs⟩ | ⟨q, hq, hargs⟩
            · exact hAcc q hq x (hargs ▸ hx)
            · rw [hargs] at hx
              rcases List.mem_append.mp hx with h | h
              · exact hAcc q hq x h
              · rw [List.mem_singleton.mp h]
                push_neg at h2
                refine ⟨hLookT, ?_, ?_⟩
                · intro b _ hb
                  rw [hAdj, Nat.add_sub_cancel, hLookPrev] at hb
                  have hbv : b = prev.2 := (Option.some_inj.mp hb).symm
                  rw [hbv]
                  exact h2.2
                · intro hmem
                  exact absurd hmem h2.1

theorem markLastPipeI_erase :
    ∀ acc : List ProcessI, eraseI (markLastPipeI acc) = markLastPipe (eraseI acc) := by
  intro acc
  induction acc with
  | nil => rfl
  | cons a r ih =>
    cases r with
    | nil => rfl
    | cons b r2 =>
      show eraseP a :: eraseI (markLastPipeI (b :: r2)) =
        markLastPipe (eraseP a :: eraseI (b :: r2))
      rw [ih]
      rfl

theorem pushLastArgI_erase :
    ∀ (acc : List ProcessI) (t : Nat × String),
      eraseI (pushLastArgI acc t) = pushLastArg (eraseI acc) t.2 := by
  intro acc
  induction acc with
  | nil => intro t; rfl
  | cons a r ih =>
    intro t
    cases r with
    | nil =>
      show [eraseP ⟨a.hasPipe, a.args ++ [t]⟩] = [_]
      simp [eraseP, pushLastArg]
    | cons b r2 =>
      show eraseP a :: eraseI (pushLastArgI (b :: r2) t) =
        pushLastArg (eraseP a :: eraseI (b :: r2)) t.2
      rw [ih]
      rfl

theorem itpStepI_erase (acc : List ProcessI) (prev t : Nat × String) :
    eraseI (itpStepI acc prev t) = itpStep (eraseI acc) prev.2 t.2 := by
  unfold itpStepI itpStep
  by_cases h1 : prev.2 = "|"
  · rw [if_pos h1, if_pos h1]
    simp [eraseI, eraseP, newProcessI, newProcess]
  · rw [if_neg h1, if_neg h1]
    by_cases h2 : t.2 ∈ Rops ∨ prev.2 ∈ Rops
    · rw [if_pos h2, if_pos h2]
    · rw [if_neg h2, if_neg h2]
      by_cases h3 : t.2 = "|"
      · rw [if_pos h3, if_pos h3]
        exact markLastPipeI_erase acc
      · rw [if_neg h3, if_neg h3]
        by_cases h4 : t.2 = "&"
        · rw [if_pos h4, if_pos h4]
        · rw [if_neg h4, if_neg h4]
          exact pushLastArgI_erase acc t

theorem itpGoI_erase :
    ∀ (rest : List (Nat × String)) (acc : List ProcessI) (prev : Nat × String),
      eraseI (itpGoI acc prev rest) =
        itpGo (eraseI acc) prev.2 (rest.map (fun x => x.2)) := by
  intro rest
  induction rest with
  | nil => intro acc prev; rfl
  | cons t rest2 ih =>
    intro acc prev
    show eraseI (itpGoI (itpStepI acc prev t) t rest2) =
      itpGo (eraseI acc) prev.2 (t.2 :: rest2.map (fun x => x.2))
    rw [ih (itpStepI acc prev t) t, itpStepI_erase]
    rfl

theorem enumFromL_map_snd :
    ∀ (l : List String) (n : Nat), (enumFromL n l).map (fun x => x.2) = l := by
  intro l
  induction l with
  | nil => intro n; rfl
  | cons a r ih =>
    intro n
    show (n, a).2 :: (enumFromL (n + 1) r).map (fun x => x.2) = a :: r
    rw [ih (n + 1)]

theorem eraseI_inputToProcessesI (toks : List String) :
    eraseI (inputToProcessesI (enumFromL 0 toks)) = inputToProcesses toks := by
  cases toks with
  | nil => rfl
  | cons a r =>
    show eraseI (itpGoI [newProcessI (0, a)] (0, a) (enumFromL 1 r)) =
      itpGo [newProcess a] a r
    rw [itpGoI_erase (enumFromL 1 r) [newProcessI (0, a)] (0, a),
      enumFromL_map_snd r 1]
    rfl

/-- Claim C6 counterexample: the line `> f` is accepted, and the
redirection operator token `>` itself is appended to the only process's
argv (a partition's first token bypasses the operator guard), so
"the redirection operator tokens themselves are never appended to any
argv ... including a partition's first token" is false on the code. -/
theorem claimC6_cex :
    accept "> f" = true ∧
    ∃ p ∈ (mkInput "> f").processes, ">" ∈ p.args := by
  constructor
  · decide
  · decide

/-- Claim C6 amended: for every token sequence, the index-instrumented
parse (whose index erasure is exactly `inputToProcesses`) shows that a
token immediately following a redirection operator is never appended to
any process's argv, and a redirection operator token itself is appended
only when it stands as a partition's first token — at position 0 or
immediately after a `|` — in which case it becomes that stage's argv[0]. -/
theorem claimC6_amended (toks : List String) :
    eraseI (inputToProcessesI (enumFromL 0 toks)) = inputToProcesses toks ∧
    ∀ p ∈ inputToProcessesI (enumFromL 0 toks), ∀ x ∈ p.args, GoodArg toks x := by
  refine ⟨eraseI_inputToProcessesI toks, ?_⟩
  cases toks with
  | nil =>
    intro p hp
    exact absurd hp (by simp [inputToProcessesI, enumFromL])
  | cons a r =>
    show ∀ p ∈ itpGoI [newProcessI (0, a)] (0, a) (enumFromL 1 r), ∀ x ∈ p.args,
      GoodArg (a :: r) x
    apply itpGoI_good (a :: r) (enumFromL 1 r) [newProcessI (0, a)] (0, a)
    · intro x hx
      rcases List.mem_cons.mp hx with h | h
      · subst h
        rfl
      · rcases enumFromL_lookup r 1 x h with ⟨hle, hget⟩
        have hx1 : x.1 = (x.1 - 1) + 1 := by omega
        rw [hx1, List.get?_cons_succ]
        exact hget
    · exact consecFrom_enumFromL r 0 a
    · intro p hp x hx
      have hpp : p = newProcessI (0, a) := by simpa using hp
      rw [hpp] at hx
      have hxx : x = (0, a) := by simpa [newProcessI] using hx
      subst hxx
      refine ⟨rfl, ?_, ?_⟩
      · intro b hle _
        simp at hle
      · intro _
        left
        rfl

theorem claimC6_witness :
    GoodArg ["x", "<", "f"] (0, "x") :=
  (claimC6_amended ["x", "<", "f"]).2 ⟨false, [(0, "x")]⟩ (by decide) (0, "x") (by decide)

-- ===================== theorems: redirection resolver (C5) =====================

/-- Claim C5: the resolver opens `<file` read-only and fails with a
no-such-file error naming the file when it is missing; opens `>file`
write-only with create mode 0644 and truncation; opens `>>file` write-only
with create mode 0666 and append; treats `e>file`/`e>>file` with the same
flags but bound to the stderr slot; any stream whose field holds the
sentinel (no redirection in the job spec) yields the inherited standard
descriptor; and the three resolved descriptors are exactly what
`set_redirects` returns. -/
theorem claimC5 (fs : SysFS) (job : InputJob) :
    (job.fdSTDIN = "STDIN_FILENO" → resolveIn fs job = .inl (.std 0)) ∧
    (job.fdSTDOUT = "STDOUT_FILENO" → resolveOut fs job = .inl (.std 1)) ∧
    (job.fdSTDERR = "STDERR_FILENO" → resolveErr fs job = .inl (.std 2)) ∧
    (job.fdSTDIN ≠ "STDIN_FILENO" → fs.fileExists job.fdSTDIN = true →
      resolveIn fs job = .inl (.file job.fdSTDIN .rdonly)) ∧
    (job.fdSTDIN ≠ "STDIN_FILENO" → fs.fileExists job.fdSTDIN = false →
      resolveIn fs job = .inr ⟨job.fdSTDIN, noSuchFileMsg job.fdSTDIN⟩) ∧
    (job.fdSTDOUT ≠ "STDOUT_FILENO" → job.tySTDOUT = ">" →
      fs.canCreate job.fdSTDOUT = true →
      resolveOut fs job = .inl (.file job.fdSTDOUT .creatTrunc644)) ∧
    (job.fdSTDOUT ≠ "STDOUT_FILENO" → job.tySTDOUT = ">>" →
      fs.canCreate job.fdSTDOUT = true →
      resolveOut fs job = .inl (.file job.fdSTDOUT .creatApp666)) ∧
    (job.fdSTDERR ≠ "STDERR_FILENO" → job.tySTDERR = "e>" →
      fs.canCreate job.fdSTDERR = true →
      resolveErr fs job = .inl (.file job.fdSTDERR .creatTrunc644)) ∧
    (job.fdSTDERR ≠ "STDERR_FILENO" → job.tySTDERR = "e>>" →
      fs.canCreate job.fdSTDERR = true →
      resolveErr fs job = .inl (.file job.fdSTDERR .creatApp666)) ∧
    (∀ din dout derr, resolveIn fs job = .inl din → resolveOut fs job = .inl dout →
      resolveErr fs job = .inl derr → set_redirects fs job = .ok din dout derr) := by
  refine ⟨?_, ?_, ?_, ?_, ?_, ?_, ?_, ?_, ?_, ?_⟩
  · intro h
    unfold resolveIn
    rw [if_pos h]
  · intro h
    unfold resolveOut
    rw [if_pos h]
  · intro h
    unfold resolveErr
    rw [if_pos h]
  · intro h1 h2
    unfold resolveIn
    rw [if_neg h1, if_pos h2]
  · intro h1 h2
    unfold resolveIn
    rw [if_neg h1, if_neg (by rw [h2]; exact Bool.false_ne_true)]
  · intro h1 h2 h3
    unfold resolveOut
    rw [if_neg h1, if_pos h2, if_pos h3]
  · intro h1 h2 h3
    unfold resolveOut
    rw [if_neg h1, if_neg (by rw [h2]; decide), if_pos h3]
  · intro h1 h2 h3
    unfold resolveErr
    rw [if_neg h1, if_pos h2, if_pos h3]
  · intro h1 h2 h3
    unfold resolveErr
    rw [if_neg h1, if_neg (by rw [h2]; decide), if_pos h3]
  · intro din dout derr h1 h2 h3
    unfold set_redirects
    rw [h1, h2, h3]

theorem claimC5_witness :
    resolveIn ⟨fun _ => true, fun _ => true⟩
      ⟨"x", true, "in.txt", "out.txt", ">", "err.txt", "e>>", []⟩ =
      .inl (.file "in.txt" .rdonly) ∧
    resolveErr ⟨fun _ => true, fun _ => true⟩
      ⟨"x", true, "in.txt", "out.txt", ">", "err.txt", "e>>", []⟩ =
      .inl (.file "err.txt" .creatApp666) :=
  ⟨(claimC5 ⟨fun _ => true, fun _ => true⟩
      ⟨"x", true, "in.txt", "out.txt", ">", "err.txt", "e>>", []⟩).2.2.2.1
      (by decide) rfl,
   (claimC5 ⟨fun _ => true, fun _ => true⟩
      ⟨"x", true, "in.txt", "out.txt", ">", "err.txt", "e>>", []⟩).2.2.2.2.2.2.2.2.1
      (by decide) rfl rfl⟩

-- ===================== theorems: launch abort on redirect failure (C2) =====================

theorem resolveIn_err_shape (fs : SysFS) (job : InputJob) (e : RedirErr)
    (h : resolveIn fs job = .inr e) :
    e.path = job.fdSTDIN ∧ e.msg = noSuchFileMsg e.path := by
  unfold resolveIn at h
  by_cases h1 : job.fdSTDIN = "STDIN_FILENO"
  · rw [if_pos h1] at h
    cases h
  · rw [if_neg h1] at h
    by_cases h2 : fs.fileExists job.fdSTDIN = true
    · rw [if_pos h2] at h
      cases h
    · rw [if_neg h2] at h
      injection h with h3
      rw [← h3]
      exact ⟨rfl, rfl⟩

theorem resolveOut_err_shape (fs : SysFS) (job : InputJob) (e : RedirErr)
    (h : resolveOut fs job = .inr e) :
    e.path = job.fdSTDOUT ∧ e.msg = cannotOpenMsg e.path := by
  unfold resolveOut at h
  by_cases h1 : job.fdSTDOUT = "STDOUT_FILENO"
  · rw [if_pos h1] at h
    cases h
  · rw [if_neg h1] at h
    by_cases h2 : job.tySTDOUT = ">"
    · rw [if_pos h2] at h
      by_cases h3 : fs.canCreate job.fdSTDOUT = true
      · rw [if_pos h3] at h
        cases h
      · rw [if_neg h3] at h
        injection h with h4
        rw [← h4]
        exact ⟨rfl, rfl⟩
    · rw [if_neg h2] at h
      by_cases h3 : fs.canCreate job.fdSTDOUT = true
      · rw [if_pos h3] at h
        cases h
      · rw [if_neg h3] at h
        injection h with h4
        rw [← h4]
        exact ⟨rfl, rfl⟩

theorem resolveErr_err_shape (fs : SysFS) (job : InputJob) (e : RedirErr)
    (h : resolveErr fs job = .inr e) :
    e.path = job.fdSTDERR ∧ e.msg = cannotOpenMsg e.path := by
  unfold resolveErr at h
  by_cases h1 : job.fdSTDERR = "STDERR_FILENO"
  · rw [if_pos h1] at h
    cases h
  · rw [if_neg h1] at h
    by_cases h2 : job.tySTDERR = "e>"
    · rw [if_pos h2] at h
      by_cases h3 : fs.canCreate job.fdSTDERR = true
      · rw [if_pos h3] at h
        cases h
      · rw [if_neg h3] at h
        injection h with h4
        rw [← h4]
        exact ⟨rfl, rfl⟩
    · rw [if_neg h2] at h
      by_cases h3 : fs.canCreate job.fdSTDERR = true
      · rw [if_pos h3] at h
        cases h
      · rw [if_neg h3] at h
        injection h with h4
        rw [← h4]
        exact ⟨rfl, rfl⟩

theorem set_redirects_err_shape (fs : SysFS) (job : InputJob) (e : RedirErr)
    (h : set_redirects fs job = .err e) :
    (e.path = job.fdSTDIN ∧ e.msg = noSuchFileMsg e.path) ∨
    (e.path = job.fdSTDOUT ∧ e.msg = cannotOpenMsg e.path) ∨
    (e.path = job.fdSTDERR ∧ e.msg = cannotOpenMsg e.path) := by
  unfold set_redirects at h
  rcases hin : resolveIn fs job with din | e0
  · rw [hin] at h
    rcases hout : resolveOut fs job with dout | e0
    · rw [hout] at h
      rcases herr : resolveErr fs job with derr | e0
      · rw [herr] at h
        cases h
      · rw [herr] at h
        injection h with h1
        rw [← h1]
        exact Or.inr (Or.inr (resolveErr_err_shape fs job e0 herr))
    · rw [hout] at h
      injection h with h1
      rw [← h1]
      exact Or.inr (Or.inl (resolveOut_err_shape fs job e0 hout))
  · rw [hin] at h
    injection h with h1
    rw [← h1]
    exact Or.inl (resolveIn_err_shape fs job e0 hin)

/-- Claim C2: for a completed (accepted) pipeline on which a redirection
target fails to resolve, the launch attempt creates no child process, the
job table is unchanged, the single printed line is the resolver's error
message, the message names the offending file (one of the job's three
redirection targets), and the REPL continues with the next prompt. -/
theorem claimC2 (fs : SysFS) (s : String) (table : List (Option InputJob))
    (e : RedirErr)
    (_hacc : accept s = true)
    (herr : set_redirects fs (mkInput s) = .err e) :
    launchLine fs s table = ⟨0, table, [e.msg], true⟩ ∧
    (e.msg = noSuchFileMsg e.path ∨ e.msg = cannotOpenMsg e.path) ∧
    (e.path = (mkInput s).fdSTDIN ∨ e.path = (mkInput s).fdSTDOUT ∨
      e.path = (mkInput s).fdSTDERR) := by
  refine ⟨?_, ?_, ?_⟩
  · simp only [launchLine, herr]
  · rcases set_redirects_err_shape fs (mkInput s) e herr with ⟨_, h⟩ | ⟨_, h⟩ | ⟨_, h⟩
    · exact Or.inl h
    · exact Or.inr h
    · exact Or.inr h
  · rcases set_redirects_err_shape fs (mkInput s) e herr with ⟨h, _⟩ | ⟨h, _⟩ | ⟨h, _⟩
    · exact Or.inl h
    · exact Or.inr (Or.inl h)
    · exact Or.inr (Or.inr h)

theorem claimC2_witness :
    launchLine ⟨fun _ => false, fun _ => false⟩ "cat < nofile" [] =
      ⟨0, [], ["1730sh: nofile: No such file or directory"], true⟩ :=
  (claimC2 ⟨fun _ => false, fun _ => false⟩ "cat < nofile" []
    ⟨"nofile", "1730sh: nofile: No such file or directory"⟩
    (by decide) (by decide)).1

-- ===================== theorems: built-in stdio not restored (C1) =====================

/-- Claim C1 divergence (the code contradicts the claim): the accepted
line `jobs > f` is a single-stage built-in with a stdout redirection; the
resolver succeeds, `do_redirects` dup2s the opened file onto the shell's
own stdout, and — since no code in the built-in path saves or restores the
original descriptors — after the built-in call returns the shell's stdout
refers to the file `f`, not to its original terminal stream.  The claim's
"stdio unchanged after the call" is false on the code. -/
theorem claimC1_divergence :
    accept "jobs > f" = true ∧
    (mkInput "jobs > f").processes.length = 1 ∧
    isBuiltIn (firstArgv0 (mkInput "jobs > f")) = true ∧
    set_redirects ⟨fun _ => true, fun _ => true⟩ (mkInput "jobs > f") =
      .ok (.std 0) (.file "f" .creatTrunc644) (.std 2) ∧
    builtinPathFds (.std 0) (.file "f" .creatTrunc644) (.std 2) =
      (.tty 0, .redirected "f" .creatTrunc644, .tty 2) ∧
    (StdTarget.redirected "f" OpenFlags.creatTrunc644 ≠ StdTarget.tty 1) := by
  refine ⟨by decide, by decide, by decide, by decide, by decide, by decide⟩

-- ===================== theorems: exit built-in (C8) =====================

/-- Claim C8 counterexample: `2147483648` is a decimal argument, but
`stoi` overflows an int, `exit_builtin` reports the error value -1, and the
shell does not exit and sets last_exit_status to EXIT_FAILURE —
contradicting "exit N with a decimal argument N terminates the shell with
exit code N". -/
theorem claimC8_cex :
    isNumberStr "2147483648" = true ∧
    callBuiltIn_exit ["exit", "2147483648"] 0 [] = ⟨none, 1, []⟩ := by
  constructor
  · decide
  · decide

/-- Claim C8 amended: with a non-negative last_exit_status, `exit` with no
argument exits with code last_exit_status; `exit N` with a decimal
argument N ≤ 2147483647 (INT_MAX, the `stoi` range) exits with code N; in
both cases every remaining job-table entry is freed before the exit; a
non-numeric argument, a decimal argument exceeding INT_MAX (on which
`stoi` throws out_of_range), or more than one argument leaves the shell
running with last_exit_status set to failure. -/
theorem claimC8_amended (args : List String) (last : Int)
    (table : List (Option InputJob)) (hlast : 0 ≤ last) :
    (args.length = 1 →
      callBuiltIn_exit args last table =
        ⟨some last, last, table.map (fun _ => none)⟩) ∧
    (∀ a0 nstr, args = [a0, nstr] → isNumberStr nstr = true →
      digitsToNat nstr.toList ≤ 2147483647 →
      callBuiltIn_exit args last table =
        ⟨some (digitsToNat nstr.toList), (digitsToNat nstr.toList : Int),
          table.map (fun _ => none)⟩) ∧
    (∀ a0 nstr, args = [a0, nstr] → isNumberStr nstr = true →
      2147483647 < digitsToNat nstr.toList →
      callBuiltIn_exit args last table = ⟨none, 1, table⟩) ∧
    (∀ a0 nstr, args = [a0, nstr] → isNumberStr nstr = false →
      callBuiltIn_exit args last table = ⟨none, 1, table⟩) ∧
    (2 < args.length → callBuiltIn_exit args last table = ⟨none, 1, table⟩) := by
  refine ⟨?_, ?_, ?_, ?_, ?_⟩
  · intro hlen
    rcases args with _ | ⟨a, _ | ⟨b, r⟩⟩
    · simp at hlen
    · have hstat : exit_builtin [a] last = last := rfl
      unfold callBuiltIn_exit
      rw [hstat, if_pos (by omega)]
    · simp at hlen
  · intro a0 nstr heq hnum hbound
    subst heq
    rcases Bool.and_eq_true_iff.mp hnum with ⟨h1, h2⟩
    have hne : nstr.toList.isEmpty = false := by
      cases hi : nstr.toList.isEmpty
      · rfl
      · rw [hi] at h1
        cases h1
    have hstat : exit_builtin [a0, nstr] last = (digitsToNat nstr.toList : Int) := by
      show (if nstr.toList.all Char.isDigit = true then
          if nstr.toList.isEmpty = true then (-1 : Int)
          else if digitsToNat nstr.toList ≤ 2147483647 then (digitsToNat nstr.toList : Int)
          else -1
        else -1) = (digitsToNat nstr.toList : Int)
      rw [if_pos h2, if_neg (by rw [hne]; exact Bool.false_ne_true), if_pos hbound]
    unfold callBuiltIn_exit
    rw [hstat, if_pos (by omega)]
  · intro a0 nstr heq hnum hbound
    subst heq
    rcases Bool.and_eq_true_iff.mp hnum with ⟨h1, h2⟩
    have hne : nstr.toList.isEmpty = false := by
      cases hi : nstr.toList.isEmpty
      · rfl
      · rw [hi] at h1
        cases h1
    have hstat : exit_builtin [a0, nstr] last = -1 := by
      show (if nstr.toList.all Char.isDigit = true then
          if nstr.toList.isEmpty = true then (-1 : Int)
          else if digitsToNat nstr.toList ≤ 2147483647 then (digitsToNat nstr.toList : Int)
          else -1
        else -1) = (-1 : Int)
      rw [if_pos h2, if_neg (by rw [hne]; exact Bool.false_ne_true),
        if_neg (by omega)]
    unfold callBuiltIn_exit
    rw [hstat, if_neg (by omega)]
  · intro a0 nstr heq hnum
    subst heq
    have hstat : exit_builtin [a0, nstr] last = -1 := by
      show (if nstr.toList.all Char.isDigit = true then
          if nstr.toList.isEmpty = true then (-1 : Int)
          else if digitsToNat nstr.toList ≤ 2147483647 then (digitsToNat nstr.toList : Int)
          else -1
        else -1) = (-1 : Int)
      by_cases hd : nstr.toList.all Char.isDigit = true
      · have hemp : nstr.toList.isEmpty = true := by
          unfold isNumberStr at hnum
          cases hi : nstr.toList.isEmpty
          · rw [hi] at hnum
            rw [hd] at hnum
            cases hnum
          · rfl
        rw [if_pos hd, if_pos hemp]
      · rw [if_neg hd]
    unfold callBuiltIn_exit
    rw [hstat, if_neg (by omega)]
  · intro hlen
    rcases args with _ | ⟨a, _ | ⟨b, _ | ⟨c, r⟩⟩⟩
    · simp at hlen
    · simp at hlen
    · simp at hlen
    · have hstat : exit_builtin (a :: b :: c :: r) last = -1 := rfl
      unfold callBuiltIn_exit
      rw [hstat, if_neg (by omega)]

theorem claimC8_witness :
    callBuiltIn_exit ["exit"] 7 [] = ⟨some 7, 7, []⟩ ∧
    callBuiltIn_exit ["exit", "42"] 0 [] = ⟨some 42, 42, []⟩ ∧
    callBuiltIn_exit ["exit", "9999999999"] 5 [] = ⟨none, 1, []⟩ :=
  ⟨(claimC8_amended ["exit"] 7 [] (by decide)).1 rfl,
   (claimC8_amended ["exit", "42"] 0 [] (by decide)).2.1 "exit" "42" rfl
     (by decide) (by decide),
   (claimC8_amended ["exit", "9999999999"] 5 [] (by decide)).2.2.1
     "exit" "9999999999" rfl (by decide) (by decide)⟩
